import Mathlib

/-!
Verification of the mesh-normalization core of `close_meshes.py`
(`remove_ground_plane`, `select_largest_component`, `simplify_mesh`,
`MeshCloser.normalize_mesh`, `MeshCloser.close_mesh`, `MeshCloser.process`).

The Python floats are embedded as exact rationals (`ℚ`); a triangle mesh is a
vertex list together with a triangle list of index triples, exactly as in the
source's Open3D representation.  Python's `ZeroDivisionError` (the only
exception reachable inside the translated arithmetic) is embedded by returning
`none` from the function in which it would be raised.

The Open3D library primitives that the source calls
(`get_axis_aligned_bounding_box`, `crop`, `cluster_connected_triangles`,
`remove_triangles_by_mask`, `remove_unreferenced_vertices`,
`simplify_vertex_clustering`, `get_minimal_oriented_bounding_box`) are not part
of the repository; each is either modelled from the specification's description
of it, or — for the minimal-oriented-bounding-box volume, which is used only to
rank candidate components — passed in as an explicit function parameter.
-/

/-- A 3D point with exact rational coordinates. -/
abbrev V3 := ℚ × ℚ × ℚ

/-- A triangle: a triple of indices into a vertex sequence. -/
abbrev Tri := ℕ × ℕ × ℕ

/-- A triangle mesh: an ordered vertex sequence and an ordered triangle
sequence, as in the spec's data model. -/
structure Mesh where
  vertices : List V3
  triangles : List Tri
deriving DecidableEq

/-- Axis-aligned bounding box: minimum and maximum corner. -/
structure AABB where
  minBound : V3
  maxBound : V3
deriving DecidableEq

/-- Componentwise minimum of two points. -/
def vmin (a b : V3) : V3 := (min a.1 b.1, min a.2.1 b.2.1, min a.2.2 b.2.2)

/-- Componentwise maximum of two points. -/
def vmax (a b : V3) : V3 := (max a.1 b.1, max a.2.1 b.2.1, max a.2.2 b.2.2)

/-- Componentwise order on points. -/
def vle (a b : V3) : Prop := a.1 ≤ b.1 ∧ a.2.1 ≤ b.2.1 ∧ a.2.2 ≤ b.2.2

instance (a b : V3) : Decidable (vle a b) := by unfold vle; infer_instance

/-- The bounding box of a list of points (degenerate at the origin when the
list is empty). -/
def aabbOfList : List V3 → AABB
  | [] => ⟨(0, 0, 0), (0, 0, 0)⟩
  | v :: vs => ⟨vs.foldl vmin v, vs.foldl vmax v⟩

/-- Modelled from the spec: `get_axis_aligned_bounding_box` — the smallest
axis-aligned box containing the mesh's vertices. -/
def aabbOf (M : Mesh) : AABB := aabbOfList M.vertices

/-- The extent (per-axis side lengths) of a bounding box. -/
def AABB.extent (b : AABB) : V3 :=
  (b.maxBound.1 - b.minBound.1, b.maxBound.2.1 - b.minBound.2.1,
    b.maxBound.2.2 - b.minBound.2.2)

/-- The volume of a bounding box: product of the three extents. -/
def AABB.volume (b : AABB) : ℚ :=
  (b.extent).1 * (b.extent).2.1 * (b.extent).2.2

/-- `AxisAlignedBoundingBox.translate`: shift both corners by a vector. -/
def AABB.translate (b : AABB) (t : V3) : AABB :=
  ⟨(b.minBound.1 + t.1, b.minBound.2.1 + t.2.1, b.minBound.2.2 + t.2.2),
    (b.maxBound.1 + t.1, b.maxBound.2.1 + t.2.1, b.maxBound.2.2 + t.2.2)⟩

/-- Whether a point lies inside a bounding box (inclusive bounds). -/
def inBox (b : AABB) (v : V3) : Bool := decide (vle b.minBound v ∧ vle v b.maxBound)

/-- Number of kept vertex positions strictly before position `i`, for a
position-keeping predicate; this is the index remapping used when vertices are
dropped from a mesh. -/
def rankKept (keepAt : ℕ → Bool) (i : ℕ) : ℕ :=
  ((List.range i).filter keepAt).length

/-- Apply an index map to the three corners of a triangle. -/
def mapTri (f : ℕ → ℕ) (t : Tri) : Tri := (f t.1, f t.2.1, f t.2.2)

/-- Modelled from the spec: Open3D `TriangleMesh.crop` — keep only the
vertices lying inside the box, and the triangles all of whose vertices
survive, with indices remapped onto the reduced vertex sequence. -/
def Mesh.crop (M : Mesh) (b : AABB) : Mesh :=
  let keepAt : ℕ → Bool := fun i => ((M.vertices.get? i).map (inBox b)).getD false
  { vertices := M.vertices.filter (inBox b)
    triangles := M.triangles.filterMap (fun t =>
      if keepAt t.1 && keepAt t.2.1 && keepAt t.2.2 then
        some (mapTri (rankKept keepAt) t)
      else none) }

/-- The loop of `remove_ground_plane` (source lines 34–44).  The working
bounding box `bb` is mutated in place by `bb.translate(...)` in the source, so
each iteration carries the accumulated translation; the crop is always taken
from the same mesh `M`.  `none` models the `ZeroDivisionError` raised when
`new_volume / prev_volume` is evaluated with `prev_volume = 0` (a Python
`float` division). -/
def rgpLoop (M : Mesh) (dy thr : ℚ) : ℕ → ℚ → AABB → Option (Mesh × Bool)
  | 0, _, _ => some (M, false)
  | fuel + 1, prevVolume, bb =>
    let bbTranslate := bb.translate (0, dy, 0)
    let mCropped := M.crop bbTranslate
    if mCropped.vertices.length < 4 then
      -- This cluster doesn't have enough points to define a 3D volume.
      some (M, false)
    else
      let newVolume := (aabbOf mCropped).volume
      if prevVolume = 0 then none
      else if newVolume / prevVolume < thr then some (mCropped, true)
      else rgpLoop M dy thr fuel newVolume bbTranslate

/-- `remove_ground_plane` (source lines 16–46). -/
def remove_ground_plane (M : Mesh) (nScanSteps : ℕ)
    (maxScanHeightFraction volumeReductionThreshold : ℚ) : Option (Mesh × Bool) :=
  let bb := aabbOf M
  let maxDy := bb.extent.2.1 * maxScanHeightFraction
  let dy := maxDy / nScanSteps
  rgpLoop M dy volumeReductionThreshold nScanSteps bb.volume bb

theorem vle_refl (a : V3) : vle a a := ⟨le_refl _, le_refl _, le_refl _⟩

theorem vle_trans {a b c : V3} (h1 : vle a b) (h2 : vle b c) : vle a c :=
  ⟨le_trans h1.1 h2.1, le_trans h1.2.1 h2.2.1, le_trans h1.2.2 h2.2.2⟩

theorem vmin_le_left (a b : V3) : vle (vmin a b) a :=
  ⟨min_le_left _ _, min_le_left _ _, min_le_left _ _⟩

theorem vmin_le_right (a b : V3) : vle (vmin a b) b :=
  ⟨min_le_right _ _, min_le_right _ _, min_le_right _ _⟩

theorem le_vmin {c a b : V3} (h1 : vle c a) (h2 : vle c b) : vle c (vmin a b) :=
  ⟨le_min h1.1 h2.1, le_min h1.2.1 h2.2.1, le_min h1.2.2 h2.2.2⟩

theorem left_le_vmax (a b : V3) : vle a (vmax a b) :=
  ⟨le_max_left _ _, le_max_left _ _, le_max_left _ _⟩

theorem right_le_vmax (a b : V3) : vle b (vmax a b) :=
  ⟨le_max_right _ _, le_max_right _ _, le_max_right _ _⟩

theorem vmax_le {a b c : V3} (h1 : vle a c) (h2 : vle b c) : vle (vmax a b) c :=
  ⟨max_le h1.1 h2.1, max_le h1.2.1 h2.2.1, max_le h1.2.2 h2.2.2⟩

theorem foldl_vmin_le_init : ∀ (vs : List V3) (init : V3), vle (vs.foldl vmin init) init := by
  intro vs
  induction vs with
  | nil => intro init; exact vle_refl init
  | cons a vs ih =>
    intro init
    simpa using vle_trans (ih (vmin init a)) (vmin_le_left init a)

theorem foldl_vmin_le_mem : ∀ (vs : List V3) (init v : V3), v ∈ vs →
    vle (vs.foldl vmin init) v := by
  intro vs
  induction vs with
  | nil => intro init v hv; simp at hv
  | cons a vs ih =>
    intro init v hv
    rcases List.mem_cons.mp hv with h | h
    · subst h
      simpa using vle_trans (foldl_vmin_le_init vs (vmin init v)) (vmin_le_right init v)
    · simpa using ih (vmin init a) v h

theorem le_foldl_vmin : ∀ (vs : List V3) (init c : V3), vle c init →
    (∀ v ∈ vs, vle c v) → vle c (vs.foldl vmin init) := by
  intro vs
  induction vs with
  | nil => intro init c h _; simpa using h
  | cons a vs ih =>
    intro init c h hall
    simp only [List.foldl_cons]
    exact ih (vmin init a) c (le_vmin h (hall a (List.mem_cons_self a vs)))
      (fun v hv => hall v (List.mem_cons_of_mem a hv))

theorem init_le_foldl_vmax : ∀ (vs : List V3) (init : V3), vle init (vs.foldl vmax init) := by
  intro vs
  induction vs with
  | nil => intro init; exact vle_refl init
  | cons a vs ih =>
    intro init
    simpa using vle_trans (left_le_vmax init a) (ih (vmax init a))

theorem mem_le_foldl_vmax : ∀ (vs : List V3) (init v : V3), v ∈ vs →
    vle v (vs.foldl vmax init) := by
  intro vs
  induction vs with
  | nil => intro init v hv; simp at hv
  | cons a vs ih =>
    intro init v hv
    rcases List.mem_cons.mp hv with h | h
    · subst h
      simpa using vle_trans (right_le_vmax init v) (init_le_foldl_vmax vs (vmax init v))
    · simpa using ih (vmax init a) v h

theorem foldl_vmax_le : ∀ (vs : List V3) (init c : V3), vle init c →
    (∀ v ∈ vs, vle v c) → vle (vs.foldl vmax init) c := by
  intro vs
  induction vs with
  | nil => intro init c h _; simpa using h
  | cons a vs ih =>
    intro init c h hall
    simp only [List.foldl_cons]
    exact ih (vmax init a) c (vmax_le h (hall a (List.mem_cons_self a vs)))
      (fun v hv => hall v (List.mem_cons_of_mem a hv))

/-- Every vertex of a mesh lies between the corners of its bounding box. -/
theorem mem_aabb_bounds {M : Mesh} {v : V3} (hv : v ∈ M.vertices) :
    vle (aabbOf M).minBound v ∧ vle v (aabbOf M).maxBound := by
  unfold aabbOf
  cases hM : M.vertices with
  | nil => rw [hM] at hv; simp at hv
  | cons a vs =>
    rw [hM] at hv
    rcases List.mem_cons.mp hv with h | h
    · subst h
      exact ⟨foldl_vmin_le_init vs v, init_le_foldl_vmax vs v⟩
    · exact ⟨foldl_vmin_le_mem vs a v h, mem_le_foldl_vmax vs a v h⟩

/-- The bounding box corners are componentwise ordered. -/
theorem aabb_minBound_le_maxBound (M : Mesh) :
    vle (aabbOf M).minBound (aabbOf M).maxBound := by
  unfold aabbOf
  cases hM : M.vertices with
  | nil => exact vle_refl _
  | cons a vs =>
    have h1 : vle (aabbOfList (a :: vs)).minBound a := foldl_vmin_le_init vs a
    have h2 : vle a (aabbOfList (a :: vs)).maxBound := init_le_foldl_vmax vs a
    exact vle_trans h1 h2

/-- Bounding-box volumes are never negative. -/
theorem aabb_volume_nonneg (M : Mesh) : 0 ≤ (aabbOf M).volume := by
  have h := aabb_minBound_le_maxBound M
  unfold AABB.volume AABB.extent
  have h1 : (0 : ℚ) ≤ (aabbOf M).maxBound.1 - (aabbOf M).minBound.1 := by
    have := h.1; linarith
  have h2 : (0 : ℚ) ≤ (aabbOf M).maxBound.2.1 - (aabbOf M).minBound.2.1 := by
    have := h.2.1; linarith
  have h3 : (0 : ℚ) ≤ (aabbOf M).maxBound.2.2 - (aabbOf M).minBound.2.2 := by
    have := h.2.2; linarith
  exact mul_nonneg (mul_nonneg h1 h2) h3

/-- If every vertex of `N` is a vertex of `M` and `N` is nonempty, the
bounding box of `N` has volume at most that of `M`. -/
theorem aabb_volume_mono {N M : Mesh} (hne : N.vertices ≠ [])
    (hsub : ∀ v ∈ N.vertices, v ∈ M.vertices) :
    (aabbOf N).volume ≤ (aabbOf M).volume := by
  have hloN : vle (aabbOf M).minBound (aabbOf N).minBound := by
    unfold aabbOf
    cases hN : N.vertices with
    | nil => exact absurd hN hne
    | cons a vs =>
      apply le_foldl_vmin
      · exact (mem_aabb_bounds (hsub a (by rw [hN]; exact List.mem_cons_self a vs))).1
      · intro v hv
        exact (mem_aabb_bounds (hsub v (by rw [hN]; exact List.mem_cons_of_mem a hv))).1
  have hhiN : vle (aabbOf N).maxBound (aabbOf M).maxBound := by
    unfold aabbOf
    cases hN : N.vertices with
    | nil => exact absurd hN hne
    | cons a vs =>
      apply foldl_vmax_le
      · exact (mem_aabb_bounds (hsub a (by rw [hN]; exact List.mem_cons_self a vs))).2
      · intro v hv
        exact (mem_aabb_bounds (hsub v (by rw [hN]; exact List.mem_cons_of_mem a hv))).2
  have hNord := aabb_minBound_le_maxBound N
  unfold AABB.volume AABB.extent
  have e1 : (aabbOf N).maxBound.1 - (aabbOf N).minBound.1 ≤
      (aabbOf M).maxBound.1 - (aabbOf M).minBound.1 := by
    have := hloN.1; have := hhiN.1; linarith
  have e2 : (aabbOf N).maxBound.2.1 - (aabbOf N).minBound.2.1 ≤
      (aabbOf M).maxBound.2.1 - (aabbOf M).minBound.2.1 := by
    have := hloN.2.1; have := hhiN.2.1; linarith
  have e3 : (aabbOf N).maxBound.2.2 - (aabbOf N).minBound.2.2 ≤
      (aabbOf M).maxBound.2.2 - (aabbOf M).minBound.2.2 := by
    have := hloN.2.2; have := hhiN.2.2; linarith
  have n1 : (0 : ℚ) ≤ (aabbOf N).maxBound.1 - (aabbOf N).minBound.1 := by
    have := hNord.1; linarith
  have n2 : (0 : ℚ) ≤ (aabbOf N).maxBound.2.1 - (aabbOf N).minBound.2.1 := by
    have := hNord.2.1; linarith
  have n3 : (0 : ℚ) ≤ (aabbOf N).maxBound.2.2 - (aabbOf N).minBound.2.2 := by
    have := hNord.2.2; linarith
  have hb1 : (0 : ℚ) ≤ (aabbOf M).maxBound.1 - (aabbOf M).minBound.1 := le_trans n1 e1
  have hb2 : (0 : ℚ) ≤ (aabbOf M).maxBound.2.1 - (aabbOf M).minBound.2.1 := le_trans n2 e2
  have h12 := mul_le_mul e1 e2 n2 hb1
  exact mul_le_mul h12 e3 n3 (mul_nonneg hb1 hb2)

/-- Vertices of a cropped mesh are vertices of the original mesh. -/
theorem crop_vertices_subset (M : Mesh) (b : AABB) :
    ∀ v ∈ (M.crop b).vertices, v ∈ M.vertices := by
  intro v hv
  unfold Mesh.crop at hv
  exact (List.mem_filter.mp hv).1

/-- Both `return M, False` paths of the loop return the input mesh itself. -/
theorem rgpLoop_false_eq (M : Mesh) (dy thr : ℚ) :
    ∀ (fuel : ℕ) (prev : ℚ) (bb : AABB) (M' : Mesh),
      rgpLoop M dy thr fuel prev bb = some (M', false) → M' = M := by
  intro fuel
  induction fuel with
  | zero =>
    intro prev bb M' h
    simp only [rgpLoop, Option.some.injEq, Prod.mk.injEq] at h
    exact h.1.symm
  | succ fuel ih =>
    intro prev bb M' h
    simp only [rgpLoop] at h
    split at h
    · simp only [Option.some.injEq, Prod.mk.injEq] at h
      exact h.1.symm
    · split at h
      · exact absurd h (by simp)
      · split at h
        · simp at h
        · exact ih _ _ M' h

/-- Loop invariant for the `found = true` outcome: the previous volume never
exceeds the original bounding-box volume, so the triggering ratio also holds
against the original volume. -/
theorem rgpLoop_true_ratio (M : Mesh) (dy thr : ℚ) :
    ∀ (fuel : ℕ) (prev : ℚ) (bb : AABB) (M' : Mesh),
      0 ≤ prev → prev ≤ (aabbOf M).volume →
      (prev = (aabbOf M).volume ∨ 0 < (aabbOf M).volume) →
      rgpLoop M dy thr fuel prev bb = some (M', true) →
      (aabbOf M').volume / (aabbOf M).volume < thr := by
  intro fuel
  induction fuel with
  | zero =>
    intro prev bb M' _ _ _ h
    simp only [rgpLoop, Option.some.injEq, Prod.mk.injEq] at h
    exact absurd h.2 (by simp)
  | succ fuel ih =>
    intro prev bb M' h0 hle hdisj h
    simp only [rgpLoop] at h
    split at h
    · simp only [Option.some.injEq, Prod.mk.injEq] at h
      exact absurd h.2 (by simp)
    · rename_i hlen
      have hne : (M.crop (bb.translate (0, dy, 0))).vertices ≠ [] := by
        intro hnil
        rw [hnil] at hlen
        simp at hlen
      have hnewle : (aabbOf (M.crop (bb.translate (0, dy, 0)))).volume ≤ (aabbOf M).volume :=
        aabb_volume_mono hne (crop_vertices_subset M _)
      have hnew0 : 0 ≤ (aabbOf (M.crop (bb.translate (0, dy, 0)))).volume :=
        aabb_volume_nonneg _
      split at h
      · exact absurd h (by simp)
      · rename_i hprev
        have hprevpos : 0 < prev := lt_of_le_of_ne h0 (Ne.symm hprev)
        have hV0pos : 0 < (aabbOf M).volume := by
          rcases hdisj with he | hp
          · rw [← he]; exact hprevpos
          · exact hp
        split at h
        · rename_i hratio
          simp only [Option.some.injEq, Prod.mk.injEq] at h
          rw [← h.1]
          have hstep : (aabbOf (M.crop (bb.translate (0, dy, 0)))).volume / (aabbOf M).volume ≤
              (aabbOf (M.crop (bb.translate (0, dy, 0)))).volume / prev := by
            rw [div_le_div_iff₀ hV0pos hprevpos]
            exact mul_le_mul_of_nonneg_left hle hnew0
          exact lt_of_le_of_lt hstep hratio
        · exact ih _ _ M' hnew0 hnewle (Or.inr hV0pos) h

/-- **C1** (volume ratio invariant): whenever `remove_ground_plane` returns
`found = true`, the returned cropped mesh's AABB volume divided by the original
input mesh's AABB volume is strictly below `volume_reduction_threshold`. -/
theorem remove_ground_plane_found_ratio (M : Mesh) (n : ℕ) (f thr : ℚ) (M' : Mesh)
    (hn : 1 ≤ n) (hf0 : 0 < f) (hf1 : f ≤ 1) (ht0 : 0 < thr) (ht1 : thr < 1)
    (h : remove_ground_plane M n f thr = some (M', true)) :
    (aabbOf M').volume / (aabbOf M).volume < thr := by
  unfold remove_ground_plane at h
  exact rgpLoop_true_ratio M _ thr n _ _ M' (aabb_volume_nonneg M) le_rfl (Or.inl rfl) h

/-- A slab of footprint 10×10 at height 0 with a thin tower above it: the
first scan step crops the slab away and the bounding-box volume collapses. -/
def meshSlabTower : Mesh :=
  ⟨[(0, 0, 0), (10, 0, 0), (0, 0, 10), (10, 0, 10),
    (4, 1, 4), (6, 1, 6), (4, 10, 4), (6, 10, 6)], []⟩

/-- The cropped result of the first scan step on `meshSlabTower`. -/
def meshTowerOnly : Mesh := ⟨[(4, 1, 4), (6, 1, 6), (4, 10, 4), (6, 10, 6)], []⟩

/-- Witness for C1 at a concrete mesh and the default operating parameters. -/
theorem remove_ground_plane_found_ratio_witness :
    1 ≤ 10 ∧ 0 < (3/20 : ℚ) ∧ (3/20 : ℚ) ≤ 1 ∧ 0 < (4/5 : ℚ) ∧ (4/5 : ℚ) < 1 ∧
    remove_ground_plane meshSlabTower 10 (3/20) (4/5) = some (meshTowerOnly, true) ∧
    (aabbOf meshTowerOnly).volume / (aabbOf meshSlabTower).volume < (4/5 : ℚ) :=
  ⟨by decide, by norm_num, by norm_num, by norm_num, by norm_num,
    by with_unfolding_all decide,
    remove_ground_plane_found_ratio meshSlabTower 10 (3/20) (4/5) meshTowerOnly
      (by decide) (by norm_num) (by norm_num) (by norm_num) (by norm_num)
      (by with_unfolding_all decide)⟩

/-- **C2** (non-destructiveness on failure): whenever `remove_ground_plane`
returns `found = false` — because a crop step retained fewer than 4 vertices,
or because all scan steps completed without triggering the threshold — the
returned mesh is the input mesh itself. -/
theorem remove_ground_plane_not_found_id (M : Mesh) (n : ℕ) (f thr : ℚ) (M' : Mesh)
    (h : remove_ground_plane M n f thr = some (M', false)) : M' = M := by
  unfold remove_ground_plane at h
  exact rgpLoop_false_eq M _ thr n _ _ M' h

/-- A 3-vertex mesh: the first crop step cannot retain 4 vertices. -/
def meshThreeVerts : Mesh := ⟨[(0, 0, 0), (1, 0, 0), (0, 1, 0)], []⟩

/-- Witness for C2 at a concrete mesh. -/
theorem remove_ground_plane_not_found_id_witness :
    remove_ground_plane meshThreeVerts 1 (3/20) (4/5) = some (meshThreeVerts, false) ∧
    meshThreeVerts = meshThreeVerts :=
  ⟨by with_unfolding_all decide,
    remove_ground_plane_not_found_id meshThreeVerts 1 (3/20) (4/5) meshThreeVerts
      (by with_unfolding_all decide)⟩

/-- **C10** (missing zero-divisor guard): when the input mesh's initial AABB
volume is zero and the first crop step still retains at least 4 vertices, the
expression `new_volume / prev_volume` is reached with `prev_volume = 0` and
`remove_ground_plane` raises `ZeroDivisionError` (embedded as `none`); the
function is total only for inputs of strictly positive initial AABB volume. -/
theorem remove_ground_plane_zero_volume_raises (M : Mesh) (n : ℕ) (f thr : ℚ)
    (hn : 1 ≤ n)
    (hvol : (aabbOf M).volume = 0)
    (hcrop : 4 ≤ (M.crop ((aabbOf M).translate
      (0, (aabbOf M).extent.2.1 * f / n, 0))).vertices.length) :
    remove_ground_plane M n f thr = none := by
  obtain ⟨m, rfl⟩ : ∃ m, n = m + 1 := ⟨n - 1, by omega⟩
  unfold remove_ground_plane
  simp only [rgpLoop]
  rw [if_neg (by omega), if_pos hvol]

/-- A mesh lying entirely in the plane `x = 0`: its AABB volume is zero, yet
the first crop step keeps 4 of its vertices. -/
def meshFlatPlane : Mesh :=
  ⟨[(0, 0, 0), (0, 2, 0), (0, 3, 1), (0, 4, 1), (0, 10, 0)], []⟩

/-- Witness for C10 at a concrete planar mesh. -/
theorem remove_ground_plane_zero_volume_raises_witness :
    1 ≤ 1 ∧ (aabbOf meshFlatPlane).volume = 0 ∧
    4 ≤ (meshFlatPlane.crop ((aabbOf meshFlatPlane).translate
      (0, (aabbOf meshFlatPlane).extent.2.1 * (1/10) / 1, 0))).vertices.length ∧
    remove_ground_plane meshFlatPlane 1 (1/10) (4/5) = none :=
  ⟨by decide, by with_unfolding_all decide, by with_unfolding_all decide,
    remove_ground_plane_zero_volume_raises meshFlatPlane 1 (1/10) (4/5)
      (by decide) (by with_unfolding_all decide) (by with_unfolding_all decide)⟩

/-- Translating a bounding box by the zero vector is the identity. -/
theorem AABB.translate_zero (b : AABB) : b.translate (0, 0, 0) = b := by
  unfold AABB.translate
  simp

/-- Two successive translations compose by adding the offsets. -/
theorem AABB.translate_translate (b : AABB) (u v : V3) :
    (b.translate u).translate v = b.translate (u.1 + v.1, u.2.1 + v.2.1, u.2.2 + v.2.2) := by
  unfold AABB.translate
  simp [add_assoc]

/-- Written from the spec's words (§4.3 and C3): the crop examined at the
1-based iteration `k + 1` is taken from the unmodified original mesh `M`
against the original bounding box `bb0` translated upward by `(k + 1) * dy` —
a cumulative translation of the same box, never the previous iteration's
cropped mesh or its own recomputed bounding box. -/
def rgpSpecLoop (M : Mesh) (bb0 : AABB) (dy thr : ℚ) : ℕ → ℕ → ℚ → Option (Mesh × Bool)
  | _, 0, _ => some (M, false)
  | k, fuel + 1, prevVolume =>
    let mCropped := M.crop (bb0.translate (0, ((k : ℚ) + 1) * dy, 0))
    if mCropped.vertices.length < 4 then some (M, false)
    else
      let newVolume := (aabbOf mCropped).volume
      if prevVolume = 0 then none
      else if newVolume / prevVolume < thr then some (mCropped, true)
      else rgpSpecLoop M bb0 dy thr (k + 1) fuel newVolume

/-- Written from the spec's words: `remove_ground_plane` with each step's crop
indexed directly from the original mesh and bounding box. -/
def removeGroundPlaneSpec (M : Mesh) (nScanSteps : ℕ) (f thr : ℚ) : Option (Mesh × Bool) :=
  let bb := aabbOf M
  let dy := bb.extent.2.1 * f / nScanSteps
  rgpSpecLoop M bb dy thr 0 nScanSteps bb.volume

/-- The source loop, started from the box already translated by `k * dy`,
agrees with the spec-indexed loop started at step count `k`. -/
theorem rgpLoop_eq_specLoop (M : Mesh) (bb0 : AABB) (dy thr : ℚ) :
    ∀ (fuel k : ℕ) (prev : ℚ),
      rgpLoop M dy thr fuel prev (bb0.translate (0, (k : ℚ) * dy, 0)) =
        rgpSpecLoop M bb0 dy thr k fuel prev := by
  intro fuel
  induction fuel with
  | zero => intro k prev; simp [rgpLoop, rgpSpecLoop]
  | succ fuel ih =>
    intro k prev
    have hbb : (bb0.translate (0, (k : ℚ) * dy, 0)).translate (0, dy, 0) =
        bb0.translate (0, ((k : ℚ) + 1) * dy, 0) := by
      rw [AABB.translate_translate]
      norm_num
      ring_nf
    simp only [rgpLoop, rgpSpecLoop, hbb]
    have hk : ((k : ℚ) + 1) = (((k + 1 : ℕ) : ℚ)) := by push_cast; ring
    rw [hk, ih (k + 1)]

/-- **C3** (cumulative cropping from the original mesh): `remove_ground_plane`
is extensionally equal to the spec-indexed search in which the iteration-`k`
crop is `M.crop (bb0.translate (0, k * dy, 0))` — the unmodified original
mesh cropped against the original AABB translated upward by `k * dy`. -/
theorem remove_ground_plane_eq_spec (M : Mesh) (n : ℕ) (f thr : ℚ) :
    remove_ground_plane M n f thr = removeGroundPlaneSpec M n f thr := by
  unfold remove_ground_plane removeGroundPlaneSpec
  rw [← rgpLoop_eq_specLoop M (aabbOf M) ((aabbOf M).extent.2.1 * f / n) thr n 0]
  have hz : ((0 : ℚ), ((0 : ℕ) : ℚ) * ((aabbOf M).extent.2.1 * f / n), (0 : ℚ)) =
      ((0 : ℚ), (0 : ℚ), (0 : ℚ)) := by norm_num
  rw [hz, AABB.translate_zero]

/-- Voxel-grid cell of a point, for grid origin `minB` and cell size `s`.
Cells are indexed from the minimum bound; a degenerate size (`s = 0`, via the
total `ℚ`-division) puts every point in cell `(0, 0, 0)`. -/
def voxelCell (minB : V3) (s : ℚ) (v : V3) : ℕ × ℕ × ℕ :=
  (⌊(v.1 - minB.1) / s⌋₊, ⌊(v.2.1 - minB.2.1) / s⌋₊, ⌊(v.2.2 - minB.2.2) / s⌋₊)

/-- The voxel cell of each vertex of a mesh, in vertex order. -/
def meshCells (M : Mesh) (s : ℚ) : List (ℕ × ℕ × ℕ) :=
  M.vertices.map (voxelCell (aabbOf M).minBound s)

/-- Modelled from the spec (§4.1): the representative of one voxel cell under
`Average` contraction — the mean position of the vertices in the cell. -/
def cellAverage (M : Mesh) (s : ℚ) (c : ℕ × ℕ × ℕ) : V3 :=
  let pts := M.vertices.filter (fun v => voxelCell (aabbOf M).minBound s v = c)
  ((pts.map (fun v => v.1)).sum / pts.length,
    (pts.map (fun v => v.2.1)).sum / pts.length,
    (pts.map (fun v => v.2.2)).sum / pts.length)

/-- Modelled from the spec (§4.1): Open3D `simplify_vertex_clustering` with
`Average` contraction — vertices falling in the same voxel cell merge into
their average; triangles are re-indexed onto the reduced vertex sequence and
dropped when all three indices collapse to the same reduced vertex. -/
def simplifyWithVoxelSize (M : Mesh) (s : ℚ) : Mesh :=
  let cells := meshCells M s
  let distinct := cells.dedup
  let newIndex : ℕ → ℕ := fun i => distinct.indexOf ((cells.get? i).getD (0, 0, 0))
  { vertices := distinct.map (cellAverage M s)
    triangles := M.triangles.filterMap (fun t =>
      let t2 := mapTri newIndex t
      if t2.1 = t2.2.1 ∧ t2.2.1 = t2.2.2 then none else some t2) }

/-- `simplify_mesh` (source lines 81–86): the voxel size is the largest AABB
extent divided by the voxel count. -/
def simplify_mesh (M : Mesh) (nSimplificationVoxels : ℕ) : Mesh :=
  simplifyWithVoxelSize M
    (max (aabbOf M).extent.1 (max (aabbOf M).extent.2.1 (aabbOf M).extent.2.2) /
      nSimplificationVoxels)

/-- The simplified vertex count is the number of distinct occupied cells. -/
theorem simplify_vertexCount (M : Mesh) (s : ℚ) :
    (simplifyWithVoxelSize M s).vertices.length = (meshCells M s).toFinset.card := by
  unfold simplifyWithVoxelSize
  simp [List.card_toFinset]

theorem list_toFinset_map {α β : Type} [DecidableEq α] [DecidableEq β]
    (l : List α) (f : α → β) : (l.map f).toFinset = l.toFinset.image f := by
  induction l with
  | nil => simp
  | cons a l ih => simp [ih]

/-- Refining the cell size by an integer factor `k` coarsens cell indices by
integer division by `k`. -/
theorem voxelCell_coarsen (minB : V3) (s2 : ℚ) (k : ℕ) (v : V3) :
    voxelCell minB ((k : ℚ) * s2) v =
      ((voxelCell minB s2 v).1 / k, (voxelCell minB s2 v).2.1 / k,
        (voxelCell minB s2 v).2.2 / k) := by
  have h : ∀ y : ℚ, ⌊y / ((k : ℚ) * s2)⌋₊ = ⌊y / s2⌋₊ / k := by
    intro y
    rw [mul_comm, ← div_div, Nat.floor_div_nat]
  unfold voxelCell
  simp [h]

/-- **C9 amended**: simplification vertex-count monotonicity holds when the
finer voxel count is an integer multiple of the coarser one (the two voxel
grids are then nested); it fails for general `V1 < V2`. -/
theorem simplify_mesh_vertexCount_mono_of_dvd (M : Mesh) (V1 V2 : ℕ)
    (h1 : 0 < V1) (h2 : 0 < V2) (hdvd : V1 ∣ V2) :
    (simplify_mesh M V1).vertices.length ≤ (simplify_mesh M V2).vertices.length := by
  obtain ⟨k, hk⟩ := hdvd
  unfold simplify_mesh
  rw [simplify_vertexCount, simplify_vertexCount]
  have hV1 : ((V1 : ℚ)) ≠ 0 := Nat.cast_ne_zero.mpr h1.ne'
  have hkpos : 0 < k := by
    rcases Nat.eq_zero_or_pos k with h | h
    · exfalso; rw [h, Nat.mul_zero] at hk; omega
    · exact h
  have hkne : ((k : ℚ)) ≠ 0 := Nat.cast_ne_zero.mpr hkpos.ne'
  set E := max (aabbOf M).extent.1 (max (aabbOf M).extent.2.1 (aabbOf M).extent.2.2)
  have hs : E / (V1 : ℚ) = (k : ℚ) * (E / (V2 : ℚ)) := by
    subst hk
    push_cast
    field_simp
    ring
  rw [hs]
  have hmap : meshCells M ((k : ℚ) * (E / (V2 : ℚ))) =
      (meshCells M (E / (V2 : ℚ))).map (fun c => (c.1 / k, c.2.1 / k, c.2.2 / k)) := by
    unfold meshCells
    rw [List.map_map]
    apply List.map_congr_left
    intro v _
    exact voxelCell_coarsen (aabbOf M).minBound (E / (V2 : ℚ)) k v
  rw [hmap, list_toFinset_map]
  exact Finset.card_image_le

/-- Six points in a cube of side 12 whose two straddle pairs merge under the
finer grid (`V = 4`, cell size 3) but split under the coarser grid (`V = 3`,
cell size 4). -/
def meshStraddle : Mesh :=
  ⟨[(0, 0, 0), (12, 12, 12), (7/2, 0, 0), (9/2, 0, 0), (7/2, 11, 0), (9/2, 11, 0)],
    [(0, 1, 2)]⟩

/-- **C9 counterexample**: with `V1 = 3 < 4 = V2`, simplifying `meshStraddle`
at the coarser count yields 5 vertices but at the finer count only 4 — the
claimed monotonicity fails. -/
theorem simplify_mesh_vertexCount_not_monotone :
    3 < 4 ∧
    ¬ ((simplify_mesh meshStraddle 3).vertices.length ≤
        (simplify_mesh meshStraddle 4).vertices.length) := by
  with_unfolding_all decide

/-- Witness for the amended C9 at a concrete mesh with `V1 = 2` dividing
`V2 = 4`. -/
theorem simplify_mesh_vertexCount_mono_of_dvd_witness :
    0 < 2 ∧ 0 < 4 ∧ (2 : ℕ) ∣ 4 ∧
    (simplify_mesh meshStraddle 2).vertices.length ≤
      (simplify_mesh meshStraddle 4).vertices.length :=
  ⟨by decide, by decide, by decide,
    simplify_mesh_vertexCount_mono_of_dvd meshStraddle 2 4 (by decide) (by decide)
      (by decide)⟩

/-- The set of vertex indices of a triangle. -/
def triVerts (t : Tri) : Finset ℕ := {t.1, t.2.1, t.2.2}

/-- Modelled from the spec (§4.2, design notes): two triangles are adjacent
when they share an edge — equivalently, at least two distinct vertex
indices. -/
def trisAdjacent (t u : Tri) : Bool := decide (2 ≤ (triVerts t ∩ triVerts u).card)

/-- Adjacency between two triangle positions of a triangle list. -/
def adjIdx (ts : List Tri) (i j : ℕ) : Bool :=
  match ts.get? i, ts.get? j with
  | some t, some u => trisAdjacent t u
  | _, _ => false

/-- One union-find step: triangle position `i` merges every component that
contains a triangle adjacent to it. -/
def insertComp (ts : List Tri) (i : ℕ) (comps : List (List ℕ)) : List (List ℕ) :=
  let parts := comps.partition (fun c => c.any (fun j => adjIdx ts i j))
  (i :: parts.1.flatten) :: parts.2

/-- Fold the union-find step over a list of triangle positions. -/
def buildComps (ts : List Tri) : List ℕ → List (List ℕ) → List (List ℕ)
  | [], comps => comps
  | i :: rest, comps => buildComps ts rest (insertComp ts i comps)

/-- Modelled from the spec (§4.2 step 1): `cluster_connected_triangles` — the
partition of triangle positions into connected clusters. -/
def componentsOf (ts : List Tri) : List (List ℕ) :=
  buildComps ts (List.range ts.length) []

/-- `remove_triangles_by_mask` with the selection loop's mask
`triangle_clusters != cluster`: keep exactly the triangles whose position lies
in the cluster `c`, in order. -/
def keepTrianglesIn (M : Mesh) (c : List ℕ) : Mesh :=
  ⟨M.vertices,
    (List.range M.triangles.length).filterMap (fun i =>
      if i ∈ c then M.triangles.get? i else none)⟩

/-- Whether vertex position `i` is referenced by some triangle of `M`. -/
def referencedIdx (M : Mesh) (i : ℕ) : Bool :=
  M.triangles.any (fun t => decide (t.1 = i ∨ t.2.1 = i ∨ t.2.2 = i))

/-- The vertex positions kept by `remove_unreferenced_vertices`: in range and
referenced by some triangle. -/
def compactKeep (M : Mesh) (i : ℕ) : Bool :=
  decide (i < M.vertices.length) && referencedIdx M i

/-- Modelled from the spec: `remove_unreferenced_vertices` — drop the vertex
positions referenced by no triangle and remap triangle indices onto the
compacted vertex sequence. -/
def remove_unreferenced_vertices (M : Mesh) : Mesh :=
  ⟨(List.range M.vertices.length).filterMap (fun i =>
      if compactKeep M i then M.vertices.get? i else none),
    M.triangles.map (mapTri (rankKept (compactKeep M)))⟩

/-- The scan of `np.argmax`: fold positions `i, i+1, …` carrying the best
index and value so far; a later value wins only when strictly greater. -/
def npArgmaxGo : List ℚ → ℕ → ℕ → ℚ → ℕ
  | [], _, bi, _ => bi
  | v :: vs, i, bi, bv =>
    if bv < v then npArgmaxGo vs (i + 1) i v else npArgmaxGo vs (i + 1) bi bv

/-- `np.argmax`: the index of the first maximal element (`0` on `[]`). -/
def npArgmax (vals : List ℚ) : ℕ :=
  match vals with
  | [] => 0
  | v :: vs => npArgmaxGo vs 1 0 v

/-- `select_largest_component` (source lines 49–78).  The volume used to rank
candidate components is the external library call
`get_minimal_oriented_bounding_box(robust=True).volume()`; it enters this
embedding only as the ranking parameter `obbVolume`. -/
def select_largest_component (obbVolume : Mesh → ℚ) (M : Mesh) : Mesh :=
  let comps := componentsOf M.triangles
  let clusterMeshes := comps.filterMap (fun c =>
    if c.length ≤ 6 then none
    else
      let mSingleComponent := remove_unreferenced_vertices (keepTrianglesIn M c)
      if mSingleComponent.vertices.length ≤ 6 then none
      else some mSingleComponent)
  if clusterMeshes.isEmpty then M
  else clusterMeshes.getD (npArgmax (clusterMeshes.map obbVolume)) M

/-- A concrete stand-in, used in witnesses, for the external minimal-OBB
ranking volume: the AABB volume. -/
def aabbVolumeRank (M : Mesh) : ℚ := (aabbOf M).volume

/-- **C6** (fallback when no cluster survives): if every cluster fails the
triangle floor, or every cluster surviving it fails the post-compaction vertex
floor, `select_largest_component` returns the original mesh unchanged. -/
theorem select_largest_component_fallback (obbVolume : Mesh → ℚ) (M : Mesh)
    (h : (∀ c ∈ componentsOf M.triangles, c.length ≤ 6) ∨
      (∀ c ∈ componentsOf M.triangles, 6 < c.length →
        (remove_unreferenced_vertices (keepTrianglesIn M c)).vertices.length ≤ 6)) :
    select_largest_component obbVolume M = M := by
  unfold select_largest_component
  have hnil : (componentsOf M.triangles).filterMap (fun c =>
      if c.length ≤ 6 then none
      else
        let mSingleComponent := remove_unreferenced_vertices (keepTrianglesIn M c)
        if mSingleComponent.vertices.length ≤ 6 then none
        else some mSingleComponent) = [] := by
    rw [List.filterMap_eq_nil]
    intro c hc
    rcases h with h | h
    · rw [if_pos (h c hc)]
    · by_cases hlen : c.length ≤ 6
      · rw [if_pos hlen]
      · rw [if_neg hlen]
        simp only
        rw [if_pos (h c hc (by omega))]
  simp only [hnil]
  rfl

/-- Scenario D: two disconnected single-triangle fragments. -/
def meshTwoFragments : Mesh :=
  ⟨[(0, 0, 0), (1, 0, 0), (0, 1, 0), (5, 5, 5), (6, 5, 5), (5, 6, 5)],
    [(0, 1, 2), (3, 4, 5)]⟩

/-- Witness for C6 on the two-fragment mesh. -/
theorem select_largest_component_fallback_witness :
    ((∀ c ∈ componentsOf meshTwoFragments.triangles, c.length ≤ 6) ∨
      (∀ c ∈ componentsOf meshTwoFragments.triangles, 6 < c.length →
        (remove_unreferenced_vertices
          (keepTrianglesIn meshTwoFragments c)).vertices.length ≤ 6)) ∧
    select_largest_component aabbVolumeRank meshTwoFragments = meshTwoFragments :=
  ⟨Or.inl (by decide),
    select_largest_component_fallback aabbVolumeRank meshTwoFragments (Or.inl (by decide))⟩

/-- `mesh.as_open3d` and the final `trimesh.Trimesh(np.array(M.vertices),
np.array(M.triangles))` are representation conversions preserving the vertex
and triangle data; both representations are `Mesh` in this embedding. -/
def as_open3d (M : Mesh) : Mesh := M

/-- `normalize_mesh` (source lines 122–143), parameterised like
`select_largest_component` by the external component-ranking volume.  `none`
propagates the `ZeroDivisionError` reachable inside `remove_ground_plane`. -/
def normalize_mesh (obbVolume : Mesh → ℚ) (mesh : Mesh)
    (nSimplificationVoxels nGroundPlaneScanSteps : ℕ)
    (maxScanHeightFraction volumeReductionThreshold : ℚ) : Option Mesh :=
  let M0 := as_open3d mesh
  let M1 := simplify_mesh M0 nSimplificationVoxels
  let M2 := select_largest_component obbVolume M1
  match remove_ground_plane M2 nGroundPlaneScanSteps maxScanHeightFraction
      volumeReductionThreshold with
  | none => none
  | some (M3, foundGroundPlane) =>
    some (if foundGroundPlane then select_largest_component obbVolume M3 else M3)

/-- Written from the spec's words (§4.4): the fixed pipeline
`simplify → selectLargestComponent → removeGroundPlane → (if found)
selectLargestComponent`, with no other branching or reordering. -/
def normalizePipelineSpec (obbVolume : Mesh → ℚ) (mesh : Mesh)
    (simplifyVoxelCount scanSteps : ℕ) (maxHeightFraction thr : ℚ) : Option Mesh :=
  let m1 := simplify_mesh mesh simplifyVoxelCount
  let m2 := select_largest_component obbVolume m1
  (remove_ground_plane m2 scanSteps maxHeightFraction thr).map
    (fun r => if r.2 then select_largest_component obbVolume r.1 else r.1)

/-- **C8** (fixed pipeline): `normalize_mesh` is exactly the spec's fixed
sequence — simplify, then select the largest component, then remove the ground
plane, then select the largest component again if and only if a ground plane
was found — with the result of that sequence returned. -/
theorem normalize_mesh_eq_pipeline (obbVolume : Mesh → ℚ) (mesh : Mesh)
    (v n : ℕ) (f thr : ℚ) :
    normalize_mesh obbVolume mesh v n f thr =
      normalizePipelineSpec obbVolume mesh v n f thr := by
  unfold normalize_mesh normalizePipelineSpec as_open3d
  dsimp only
  cases remove_ground_plane (select_largest_component obbVolume (simplify_mesh mesh v))
      n f thr with
  | none => rfl
  | some r => cases r; rfl

/-- Modelled from the spec (§7): a malformed mesh — zero vertices, or a
triangle index out of range of the vertex sequence. -/
def malformedMesh (M : Mesh) : Bool :=
  M.vertices.isEmpty ||
    M.triangles.any (fun t => decide (M.vertices.length ≤ t.1 ∨
      M.vertices.length ≤ t.2.1 ∨ M.vertices.length ≤ t.2.2))

/-- The empty mesh: malformed (zero vertices) by the spec's taxonomy. -/
def meshEmpty : Mesh := ⟨[], []⟩

/-- **C4 counterexample**: the empty mesh is malformed, yet `normalize_mesh`
neither detects nor rejects it — the whole geometric pipeline (simplification,
component selection, bounding-box computation) runs on it and returns
normally. -/
theorem normalize_mesh_accepts_malformed :
    malformedMesh meshEmpty = true ∧
    normalize_mesh aabbVolumeRank meshEmpty 128 10 (3/20) (4/5) = some meshEmpty := by
  with_unfolding_all decide

/-- **C4 amended**: no malformed-mesh precondition check exists; a malformed
mesh is passed directly through the geometric pipeline exactly like any other
input, with no detection or rejection step before geometric computation. -/
theorem normalize_mesh_no_malformed_check (obbVolume : Mesh → ℚ) (M : Mesh)
    (v n : ℕ) (f thr : ℚ) (h : malformedMesh M = true) :
    normalize_mesh obbVolume M v n f thr =
      (remove_ground_plane (select_largest_component obbVolume (simplify_mesh M v))
          n f thr).map
        (fun r => if r.2 then select_largest_component obbVolume r.1 else r.1) := by
  unfold normalize_mesh as_open3d
  dsimp only
  cases remove_ground_plane (select_largest_component obbVolume (simplify_mesh M v))
      n f thr with
  | none => rfl
  | some r => cases r; rfl

/-- Witness for the amended C4 at the empty mesh. -/
theorem normalize_mesh_no_malformed_check_witness :
    malformedMesh meshEmpty = true ∧
    normalize_mesh aabbVolumeRank meshEmpty 128 10 (3/20) (4/5) =
      (remove_ground_plane
          (select_largest_component aabbVolumeRank (simplify_mesh meshEmpty 128))
          10 (3/20) (4/5)).map
        (fun r => if r.2 then select_largest_component aabbVolumeRank r.1 else r.1) :=
  ⟨by decide,
    normalize_mesh_no_malformed_check aabbVolumeRank meshEmpty 128 10 (3/20) (4/5)
      (by decide)⟩

/-- The observable result of one external watertighting invocation
(`./bin/manifold --input … --output …`): its exit code and captured standard
output. -/
structure ManifoldRun where
  returnCode : ℤ
  stdout : String
deriving DecidableEq

/-- The message printed by `close_mesh` when the watertighter fails
(source lines 150–153). -/
def closeMeshFailureLog (inputPath : String) (run : ManifoldRun) : String :=
  "Failed to close mesh " ++ inputPath ++ ". manifold returned " ++
    toString run.returnCode ++ " with the following error:\n" ++ run.stdout

/-- `close_mesh` (source lines 145–153): wait for the external process; on a
non-zero exit code print the failure message.  Nothing else happens — no
exception, no flag, no early return. -/
def close_mesh (inputPath : String) (run : ManifoldRun) : List String :=
  if run.returnCode ≠ 0 then [closeMeshFailureLog inputPath run] else []

/-- The observable outcome of one `process` call: whether the existing-output
early return fired, what was logged, and — when normalization ran — its
result (`none` in `normalized` means normalization never ran). -/
structure ProcessOutcome where
  skippedExisting : Bool
  logs : List String
  normalized : Option (Option Mesh)
deriving DecidableEq

/-- `process` (source lines 155–172) for one input file, with the outer world
supplied as data: whether the output path already exists, the watertighting
run's observable result, and the mesh loaded back from the watertighter's
output file. -/
def process (obbVolume : Mesh → ℚ) (outputExists : Bool) (inputPath : String)
    (run : ManifoldRun) (loadedMesh : Mesh) (v n : ℕ) (f thr : ℚ) : ProcessOutcome :=
  if outputExists then ⟨true, [], none⟩
  else
    ⟨false, close_mesh inputPath run,
      some (normalize_mesh obbVolume loadedMesh v n f thr)⟩

/-- **C5 counterexample**: with a failing watertighting run (exit code 1), the
file is not skipped — `process` goes on to run normalization on the mesh
loaded from the failed attempt's output. -/
theorem process_normalizes_after_failed_watertighting :
    (⟨1, "err"⟩ : ManifoldRun).returnCode ≠ 0 ∧
    (process aabbVolumeRank false "a.obj" ⟨1, "err"⟩ meshTwoFragments
        128 10 (3/20) (4/5)).normalized ≠ none := by
  refine ⟨by decide, ?_⟩
  with_unfolding_all decide

/-- **C5 amended**: on a non-zero watertighting exit code the failure is
logged with the captured standard output, but the file is not skipped:
normalization still runs, on the mesh loaded from the failed attempt's output
path. -/
theorem process_failure_logged_not_skipped (obbVolume : Mesh → ℚ)
    (inputPath : String) (run : ManifoldRun) (loadedMesh : Mesh)
    (v n : ℕ) (f thr : ℚ) (hrc : run.returnCode ≠ 0) :
    (process obbVolume false inputPath run loadedMesh v n f thr).logs =
      [closeMeshFailureLog inputPath run] ∧
    (process obbVolume false inputPath run loadedMesh v n f thr).normalized =
      some (normalize_mesh obbVolume loadedMesh v n f thr) := by
  unfold process close_mesh
  rw [if_neg (by simp), if_pos hrc]
  exact ⟨rfl, rfl⟩

/-- Witness for the amended C5 at a concrete failing run. -/
theorem process_failure_logged_not_skipped_witness :
    (⟨1, "err"⟩ : ManifoldRun).returnCode ≠ 0 ∧
    (process aabbVolumeRank false "a.obj" ⟨1, "err"⟩ meshTwoFragments
        128 10 (3/20) (4/5)).logs = [closeMeshFailureLog "a.obj" ⟨1, "err"⟩] ∧
    (process aabbVolumeRank false "a.obj" ⟨1, "err"⟩ meshTwoFragments
        128 10 (3/20) (4/5)).normalized =
      some (normalize_mesh aabbVolumeRank meshTwoFragments 128 10 (3/20) (4/5)) :=
  ⟨by decide,
    process_failure_logged_not_skipped aabbVolumeRank "a.obj" ⟨1, "err"⟩
      meshTwoFragments 128 10 (3/20) (4/5) (by decide)⟩

theorem trisAdjacent_symm (t u : Tri) : trisAdjacent t u = trisAdjacent u t := by
  unfold trisAdjacent
  rw [Finset.inter_comm]

theorem adjIdx_symm (ts : List Tri) (i j : ℕ) : adjIdx ts i j = adjIdx ts j i := by
  unfold adjIdx
  cases ts.get? i <;> cases ts.get? j <;> simp [trisAdjacent_symm]

theorem adjIdx_lt_length {ts : List Tri} {i j : ℕ} (h : adjIdx ts i j = true) :
    i < ts.length ∧ j < ts.length := by
  unfold adjIdx at h
  cases hi : ts.get? i with
  | none => rw [hi] at h; simp at h
  | some t =>
    cases hj : ts.get? j with
    | none => rw [hi, hj] at h; simp at h
    | some u =>
      exact ⟨List.get?_eq_some.mp hi |>.choose, List.get?_eq_some.mp hj |>.choose⟩

/-- The invariant carried by the union-find fold: the components partition the
processed positions, are nonempty, are closed under adjacency to processed
positions, and are internally connected. -/
structure CompInv (ts : List Tri) (done : List ℕ) (comps : List (List ℕ)) : Prop where
  perm : comps.flatten.Perm done
  nonempty : ∀ c ∈ comps, c ≠ []
  closed : ∀ c ∈ comps, ∀ x ∈ c, ∀ j ∈ done, adjIdx ts x j = true → j ∈ c
  conn : ∀ c ∈ comps, ∀ x ∈ c, ∀ y ∈ c,
    Relation.ReflTransGen (fun a b => a ∈ c ∧ b ∈ c ∧ adjIdx ts a b = true) x y

theorem compInv_insert {ts : List Tri} {done : List ℕ} {comps : List (List ℕ)} {i : ℕ}
    (hInv : CompInv ts done comps) (hi : i ∉ done) :
    CompInv ts (i :: done) (insertComp ts i comps) := by
  classical
  set p : List ℕ → Bool := fun c => c.any (fun j => adjIdx ts i j) with hp
  have hins : insertComp ts i comps =
      (i :: (comps.filter p).flatten) :: comps.filter (fun c => !(p c)) := by
    unfold insertComp
    rw [List.partition_eq_filter_filter]
    rfl
  rw [hins]
  have hflatperm : ((comps.filter p).flatten ++ (comps.filter (fun c => !(p c))).flatten).Perm
      comps.flatten := by
    rw [← List.flatten_append]
    exact List.Perm.flatten (List.filter_append_perm p comps)
  constructor
  · -- partition of i :: done
    have h1 : ((i :: (comps.filter p).flatten) :: comps.filter (fun c => !(p c))).flatten
        = i :: ((comps.filter p).flatten ++ (comps.filter (fun c => !(p c))).flatten) := by
      simp [List.flatten_cons]
    rw [h1]
    exact (hflatperm.cons i).trans (hInv.perm.cons i)
  · -- nonemptiness
    intro c hc
    rcases List.mem_cons.mp hc with h | h
    · subst h; simp
    · exact hInv.nonempty c (List.mem_of_mem_filter h)
  · -- closure
    intro c hc x hx j hj hadj
    rcases List.mem_cons.mp hc with h | h
    · subst h
      rcases List.mem_cons.mp hj with hij | hjd
      · rw [hij]; exact List.mem_cons_self _ _
      · rcases List.mem_cons.mp hx with hxi | hxf
        · -- x = i: j lies in some old component that i touches
          have hjfl : j ∈ comps.flatten := (hInv.perm.mem_iff).mpr hjd
          obtain ⟨d, hd, hjd'⟩ := List.mem_flatten.mp hjfl
          have hpd : p d = true := by
            rw [hp]
            refine List.any_eq_true.mpr ⟨j, hjd', ?_⟩
            rw [← hxi]
            exact hadj
          exact List.mem_cons_of_mem _ (List.mem_flatten.mpr
            ⟨d, List.mem_filter.mpr ⟨hd, hpd⟩, hjd'⟩)
        · -- x in a touched old component: old closure puts j there too
          obtain ⟨d, hd, hxd⟩ := List.mem_flatten.mp hxf
          have hdc : d ∈ comps := List.mem_of_mem_filter hd
          have hjd' : j ∈ d := hInv.closed d hdc x hxd j hjd hadj
          exact List.mem_cons_of_mem _ (List.mem_flatten.mpr ⟨d, hd, hjd'⟩)
    · -- untouched component
      have hcc : c ∈ comps := List.mem_of_mem_filter h
      rcases List.mem_cons.mp hj with hij | hjd
      · exfalso
        have hnp : p c = false := by
          have h2 := (List.mem_filter.mp h).2
          simpa using h2
        rw [hij] at hadj
        have hix : adjIdx ts i x = true := by rw [adjIdx_symm]; exact hadj
        have hcon : p c = true := by
          rw [hp]
          exact List.any_eq_true.mpr ⟨x, hx, hix⟩
        rw [hnp] at hcon
        exact Bool.false_ne_true hcon
      · exact hInv.closed c hcc x hx j hjd hadj
  · -- connectivity
    intro c hc x hx y hy
    rcases List.mem_cons.mp hc with h | h
    · subst h
      set c' : List ℕ := i :: (comps.filter p).flatten with hc'
      have hsym : Symmetric (fun a b => a ∈ c' ∧ b ∈ c' ∧ adjIdx ts a b = true) := by
        intro a b hab
        exact ⟨hab.2.1, hab.1, by rw [adjIdx_symm]; exact hab.2.2⟩
      have hto_i : ∀ z ∈ c',
          Relation.ReflTransGen (fun a b => a ∈ c' ∧ b ∈ c' ∧ adjIdx ts a b = true) z i := by
        intro z hz
        rcases List.mem_cons.mp hz with hzi | hzf
        · subst hzi; exact Relation.ReflTransGen.refl
        · obtain ⟨d, hd, hzd⟩ := List.mem_flatten.mp hzf
          have hdc : d ∈ comps := List.mem_of_mem_filter hd
          have hpd : p d = true := (List.mem_filter.mp hd).2
          obtain ⟨w, hwd, hw⟩ := List.any_eq_true.mp (by rw [hp] at hpd; exact hpd)
          have hsub : ∀ a ∈ d, a ∈ c' := by
            intro a ha
            exact List.mem_cons_of_mem _ (List.mem_flatten.mpr ⟨d, hd, ha⟩)
          have hzw : Relation.ReflTransGen
              (fun a b => a ∈ c' ∧ b ∈ c' ∧ adjIdx ts a b = true) z w :=
            (hInv.conn d hdc z hzd w hwd).mono
              (fun a b hab => ⟨hsub a hab.1, hsub b hab.2.1, hab.2.2⟩)
          refine Relation.ReflTransGen.tail hzw ?_
          exact ⟨hsub w hwd, List.mem_cons_self _ _, by rw [adjIdx_symm]; exact hw⟩
      exact (hto_i x hx).trans ((Relation.ReflTransGen.symmetric hsym) (hto_i y hy))
    · exact hInv.conn c (List.mem_of_mem_filter h) x hx y hy

theorem buildComps_inv (ts : List Tri) :
    ∀ (idxs done : List ℕ) (comps : List (List ℕ)),
      CompInv ts done comps → (∀ i ∈ idxs, i ∉ done) → idxs.Nodup →
      CompInv ts (idxs.reverse ++ done) (buildComps ts idxs comps) := by
  intro idxs
  induction idxs with
  | nil => intro done comps hInv _ _; simpa using hInv
  | cons i rest ih =>
    intro done comps hInv hnew hnd
    have h1 : CompInv ts (i :: done) (insertComp ts i comps) :=
      compInv_insert hInv (hnew i (List.mem_cons_self i rest))
    have h2 := ih (i :: done) (insertComp ts i comps) h1
      (fun j hj => by
        intro hmem
        rcases List.mem_cons.mp hmem with he | hd
        · exact (List.nodup_cons.mp hnd).1 (he ▸ hj)
        · exact hnew j (List.mem_cons_of_mem i hj) hd)
      (List.nodup_cons.mp hnd).2
    have heq : (i :: rest).reverse ++ done = rest.reverse ++ (i :: done) := by
      simp [List.reverse_cons, List.append_assoc]
    rw [heq]
    exact h2

theorem componentsOf_inv (ts : List Tri) :
    CompInv ts ((List.range ts.length).reverse ++ []) (componentsOf ts) :=
  buildComps_inv ts (List.range ts.length) [] []
    ⟨by simp, by simp, by simp, by simp⟩ (by simp) (List.nodup_range _)

/-- The components partition the triangle positions. -/
theorem componentsOf_flatten_perm (ts : List Tri) :
    (componentsOf ts).flatten.Perm (List.range ts.length) := by
  have h := (componentsOf_inv ts).perm
  rw [List.append_nil] at h
  exact h.trans (List.reverse_perm _)

theorem componentsOf_nonempty (ts : List Tri) : ∀ c ∈ componentsOf ts, c ≠ [] :=
  (componentsOf_inv ts).nonempty

theorem componentsOf_mem_lt {ts : List Tri} {c : List ℕ} {x : ℕ}
    (hc : c ∈ componentsOf ts) (hx : x ∈ c) : x < ts.length := by
  have h1 : x ∈ (componentsOf ts).flatten := List.mem_flatten.mpr ⟨c, hc, hx⟩
  have h2 := (componentsOf_flatten_perm ts).mem_iff.mp h1
  exact List.mem_range.mp h2

/-- Components are closed under adjacency. -/
theorem componentsOf_closed {ts : List Tri} {c : List ℕ}
    (hc : c ∈ componentsOf ts) :
    ∀ x ∈ c, ∀ j, adjIdx ts x j = true → j ∈ c := by
  intro x hx j hadj
  have hj : j < ts.length := (adjIdx_lt_length hadj).2
  have hjd : j ∈ (List.range ts.length).reverse ++ ([] : List ℕ) := by
    simp only [List.append_nil, List.mem_reverse, List.mem_range]
    exact hj
  exact (componentsOf_inv ts).closed c hc x hx j hjd hadj

/-- Components are internally connected. -/
theorem componentsOf_conn {ts : List Tri} {c : List ℕ} (hc : c ∈ componentsOf ts) :
    ∀ x ∈ c, ∀ y ∈ c, Relation.ReflTransGen
      (fun a b => a ∈ c ∧ b ∈ c ∧ adjIdx ts a b = true) x y :=
  (componentsOf_inv ts).conn c hc

theorem componentsOf_flatten_nodup (ts : List Tri) : (componentsOf ts).flatten.Nodup :=
  ((componentsOf_flatten_perm ts).nodup_iff).mpr (List.nodup_range _)

theorem componentsOf_comp_nodup {ts : List Tri} {c : List ℕ}
    (hc : c ∈ componentsOf ts) : c.Nodup :=
  (List.nodup_flatten.mp (componentsOf_flatten_nodup ts)).1 c hc

/-- A triangle list whose adjacency graph is connected has exactly one
component, covering every position. -/
theorem componentsOf_single (ts : List Tri) (hne : 0 < ts.length)
    (hconn : ∀ j, j < ts.length →
      Relation.ReflTransGen (fun a b => adjIdx ts a b = true) 0 j) :
    ∃ c, componentsOf ts = [c] ∧ c.Perm (List.range ts.length) := by
  have h0 : (0 : ℕ) ∈ (componentsOf ts).flatten :=
    (componentsOf_flatten_perm ts).mem_iff.mpr (List.mem_range.mpr hne)
  obtain ⟨c0, hc0, h0c⟩ := List.mem_flatten.mp h0
  have hall : ∀ j, j < ts.length → j ∈ c0 := by
    intro j hj
    have hpath := hconn j hj
    clear hj
    induction hpath with
    | refl => exact h0c
    | tail _ hr ih => exact componentsOf_closed hc0 _ ih _ hr
  have hperm : c0.Perm (List.range ts.length) := by
    rw [List.perm_ext_iff_of_nodup (componentsOf_comp_nodup hc0) (List.nodup_range _)]
    intro a
    constructor
    · intro ha; exact List.mem_range.mpr (componentsOf_mem_lt hc0 ha)
    · intro ha; exact hall a (List.mem_range.mp ha)
  refine ⟨c0, ?_, hperm⟩
  have hflatlen : (componentsOf ts).flatten.length = ts.length := by
    rw [(componentsOf_flatten_perm ts).length_eq, List.length_range]
  have hc0len : c0.length = ts.length := by
    rw [hperm.length_eq, List.length_range]
  have hflat_eq : (componentsOf ts).flatten = c0 := by
    have hsub : c0.Sublist (componentsOf ts).flatten := List.sublist_flatten_of_mem hc0
    exact (hsub.eq_of_length (by rw [hc0len, hflatlen])).symm
  cases hcomps : componentsOf ts with
  | nil => rw [hcomps] at hc0; simp at hc0
  | cons d rest =>
    have hflat2 : d ++ rest.flatten = c0 := by
      rw [← List.flatten_cons, ← hcomps, hflat_eq]
    have hd_ne : d ≠ [] := componentsOf_nonempty ts d (by rw [hcomps]; exact List.mem_cons_self _ _)
    rcases List.mem_cons.mp (by rw [hcomps] at hc0; exact hc0) with hce | hcr
    · -- c0 is the head; the tail must be empty
      have hrest : rest.flatten.length = 0 := by
        have := congrArg List.length hflat2
        rw [List.length_append, hce] at this
        omega
      have hrest_nil : rest = [] := by
        cases hrest' : rest with
        | nil => rfl
        | cons r rs =>
          exfalso
          have hr_ne : r ≠ [] := componentsOf_nonempty ts r
            (by rw [hcomps, hrest']; exact List.mem_cons_of_mem _ (List.mem_cons_self _ _))
          have : r.length = 0 := by
            have hsubr : r.Sublist rest.flatten := by
              rw [hrest']
              exact List.sublist_flatten_of_mem (List.mem_cons_self _ _)
            have := hsubr.length_le
            omega
          exact hr_ne (List.eq_nil_of_length_eq_zero this)
      rw [hrest_nil, hce]
    · -- c0 in the tail would force the head to be empty
      exfalso
      have hc0sub : c0.Sublist rest.flatten := List.sublist_flatten_of_mem hcr
      have h1 := hc0sub.length_le
      have h2 := congrArg List.length hflat2
      rw [List.length_append, hc0len] at h2
      rw [hc0len] at h1
      exact hd_ne (List.eq_nil_of_length_eq_zero (by omega))

/-- The spec's data-model invariant (§3): every triangle's indices are valid
indices into the vertex sequence. -/
def MeshValid (M : Mesh) : Bool :=
  M.triangles.all (fun t => decide (t.1 < M.vertices.length ∧
    t.2.1 < M.vertices.length ∧ t.2.2 < M.vertices.length))

theorem Mesh.eq_of {A B : Mesh} (h1 : A.vertices = B.vertices)
    (h2 : A.triangles = B.triangles) : A = B := by
  cases A; cases B; cases h1; cases h2; rfl

theorem filterMap_ite {α : Type} (l : List ℕ) (q : ℕ → Prop) [DecidablePred q]
    (g : ℕ → Option α) :
    l.filterMap (fun i => if q i then g i else none) =
      (l.filter (fun i => decide (q i))).filterMap g := by
  induction l with
  | nil => rfl
  | cons a l ih =>
    by_cases h : q a
    · simp only [List.filterMap_cons, List.filter_cons, if_pos h, decide_eq_true_eq, h,
        ite_true]
      cases hg : g a with
      | none => simp [hg, ih]
      | some b => simp [hg, ih]
    · simp only [List.filterMap_cons, List.filter_cons, if_neg h, decide_eq_true_eq, h,
        ite_false]
      exact ih

theorem filterMap_iteB {α : Type} (l : List ℕ) (q : ℕ → Bool) (g : ℕ → Option α) :
    l.filterMap (fun i => if q i then g i else none) = (l.filter q).filterMap g := by
  have h := filterMap_ite l (fun i => q i = true) g
  have hq : (fun i => decide (q i = true)) = q := by
    funext i
    cases hqi : q i <;> simp [hqi]
  rw [hq] at h
  exact h

theorem filterMap_get?_eq_map (ts : List Tri) (l : List ℕ)
    (hl : ∀ i ∈ l, i < ts.length) :
    l.filterMap ts.get? = l.map (fun i => ts.getD i (0, 0, 0)) := by
  induction l with
  | nil => rfl
  | cons a l ih =>
    have ha : a < ts.length := hl a (List.mem_cons_self _ _)
    have hsome : ts.get? a = some (ts.getD a (0, 0, 0)) := by
      rw [List.getD_eq_getElem ts _ ha, List.get?_eq_getElem?, List.getElem?_eq_getElem ha]
    rw [List.filterMap_cons, hsome, List.map_cons,
      ih (fun i hi => hl i (List.mem_cons_of_mem _ hi))]

theorem vfilterMap_get?_eq_map (vs : List V3) (l : List ℕ)
    (hl : ∀ i ∈ l, i < vs.length) :
    l.filterMap vs.get? = l.map (fun i => vs.getD i (0, 0, 0)) := by
  induction l with
  | nil => rfl
  | cons a l ih =>
    have ha : a < vs.length := hl a (List.mem_cons_self _ _)
    have hsome : vs.get? a = some (vs.getD a (0, 0, 0)) := by
      rw [List.getD_eq_getElem vs _ ha, List.get?_eq_getElem?, List.getElem?_eq_getElem ha]
    rw [List.filterMap_cons, hsome, List.map_cons,
      ih (fun i hi => hl i (List.mem_cons_of_mem _ hi))]

theorem map_getD_range {α : Type} (l : List α) (d : α) :
    (List.range l.length).map (fun i => l.getD i d) = l := by
  apply List.ext_getElem (by simp)
  intro i h1 h2
  simp only [List.getElem_map, List.getElem_range]
  exact List.getD_eq_getElem l d h2

/-- The triangle list kept by the cluster mask, as a map over the sorted list
of kept positions. -/
theorem keepTrianglesIn_triangles (M : Mesh) (c : List ℕ) :
    (keepTrianglesIn M c).triangles =
      ((List.range M.triangles.length).filter (fun i => decide (i ∈ c))).map
        (fun i => M.triangles.getD i (0, 0, 0)) := by
  unfold keepTrianglesIn
  rw [filterMap_ite, filterMap_get?_eq_map]
  intro i hi
  exact List.mem_range.mp (List.mem_of_mem_filter hi)

theorem keepTrianglesIn_vertices (M : Mesh) (c : List ℕ) :
    (keepTrianglesIn M c).vertices = M.vertices := rfl

theorem keepTrianglesIn_mem {M : Mesh} {c : List ℕ} {t : Tri}
    (ht : t ∈ (keepTrianglesIn M c).triangles) : t ∈ M.triangles := by
  unfold keepTrianglesIn at ht
  obtain ⟨i, _, hi⟩ := List.mem_filterMap.mp ht
  by_cases h : i ∈ c
  · rw [if_pos h] at hi
    exact List.get?_mem hi
  · rw [if_neg h] at hi
    cases hi

theorem keepTrianglesIn_valid {M : Mesh} {c : List ℕ} (h : MeshValid M = true) :
    MeshValid (keepTrianglesIn M c) = true := by
  unfold MeshValid at h ⊢
  rw [List.all_eq_true] at h ⊢
  intro t ht
  exact h t (keepTrianglesIn_mem ht)

theorem rankKept_lt_of_lt (keepAt : ℕ → Bool) {i j : ℕ} (hi : keepAt i = true)
    (hij : i < j) : rankKept keepAt i < rankKept keepAt j := by
  unfold rankKept
  have hsub : (List.range (i + 1)).Sublist (List.range j) :=
    List.range_sublist.mpr (by omega)
  have h1 : ((List.range (i + 1)).filter keepAt).length ≤
      ((List.range j).filter keepAt).length := (hsub.filter keepAt).length_le
  rw [List.range_succ, List.filter_append] at h1
  simp only [List.filter_cons, hi, ite_true, List.filter_nil, List.length_append,
    List.length_cons, List.length_nil] at h1
  omega

/-- The rank of the `j`-th kept position is `j`. -/
theorem rankKept_getD_filter_range (keepAt : ℕ → Bool) (N : ℕ) :
    ∀ j, j < ((List.range N).filter keepAt).length →
      rankKept keepAt (((List.range N).filter keepAt).getD j 0) = j := by
  induction N with
  | zero => intro j hj; simp at hj
  | succ N ih =>
    intro j hj
    rw [List.range_succ, List.filter_append] at hj ⊢
    by_cases hN : keepAt N = true
    · have hfN : List.filter keepAt [N] = [N] := by simp [hN]
      rw [hfN] at hj ⊢
      by_cases hjl : j < ((List.range N).filter keepAt).length
      · rw [List.getD_append _ _ _ _ hjl]
        exact ih j hjl
      · have hj' : j = ((List.range N).filter keepAt).length := by
          rw [List.length_append, List.length_cons, List.length_nil] at hj
          omega
        rw [List.getD_append_right _ _ _ _ (by omega), hj']
        simp only [Nat.sub_self, List.getD_cons_zero]
        unfold rankKept
        rfl
    · have hfN : List.filter keepAt [N] = [] := by simp [hN]
      rw [hfN] at hj ⊢
      rw [List.append_nil] at hj ⊢
      exact ih j hj

theorem remove_unreferenced_vertices_verts (X : Mesh) :
    (remove_unreferenced_vertices X).vertices =
      ((List.range X.vertices.length).filter (compactKeep X)).map
        (fun i => X.vertices.getD i (0, 0, 0)) := by
  unfold remove_unreferenced_vertices
  rw [filterMap_iteB, vfilterMap_get?_eq_map]
  intro i hi
  exact List.mem_range.mp (List.mem_of_mem_filter hi)

theorem remove_unreferenced_vertices_verts_length (X : Mesh) :
    (remove_unreferenced_vertices X).vertices.length =
      ((List.range X.vertices.length).filter (compactKeep X)).length := by
  rw [remove_unreferenced_vertices_verts, List.length_map]

theorem remove_unreferenced_vertices_tris (X : Mesh) :
    (remove_unreferenced_vertices X).triangles =
      X.triangles.map (mapTri (rankKept (compactKeep X))) := rfl

theorem compactKeep_of_corner {X : Mesh} {t : Tri} (ht : t ∈ X.triangles)
    (hval : MeshValid X = true) :
    compactKeep X t.1 = true ∧ compactKeep X t.2.1 = true ∧
      compactKeep X t.2.2 = true := by
  have hv := (List.all_eq_true.mp hval) t ht
  rw [decide_eq_true_eq] at hv
  unfold compactKeep referencedIdx
  refine ⟨?_, ?_, ?_⟩ <;> rw [Bool.and_eq_true, decide_eq_true_eq]
  · exact ⟨hv.1, List.any_eq_true.mpr ⟨t, ht, by simp⟩⟩
  · exact ⟨hv.2.1, List.any_eq_true.mpr ⟨t, ht, by simp⟩⟩
  · exact ⟨hv.2.2, List.any_eq_true.mpr ⟨t, ht, by simp⟩⟩

theorem remove_unreferenced_vertices_valid {X : Mesh} (hX : MeshValid X = true) :
    MeshValid (remove_unreferenced_vertices X) = true := by
  unfold MeshValid
  rw [List.all_eq_true]
  intro t' ht'
  rw [remove_unreferenced_vertices_tris] at ht'
  obtain ⟨t, ht, rfl⟩ := List.mem_map.mp ht'
  obtain ⟨h1, h2, h3⟩ := compactKeep_of_corner ht hX
  have hv := (List.all_eq_true.mp hX) t ht
  rw [decide_eq_true_eq] at hv
  rw [decide_eq_true_eq, remove_unreferenced_vertices_verts_length]
  unfold mapTri
  exact ⟨rankKept_lt_of_lt _ h1 hv.1, rankKept_lt_of_lt _ h2 hv.2.1,
    rankKept_lt_of_lt _ h3 hv.2.2⟩

theorem remove_unreferenced_vertices_all_referenced (X : Mesh) :
    ∀ j, j < (remove_unreferenced_vertices X).vertices.length →
      referencedIdx (remove_unreferenced_vertices X) j = true := by
  intro j hj
  rw [remove_unreferenced_vertices_verts_length] at hj
  have hiL : ((List.range X.vertices.length).filter (compactKeep X)).getD j 0 ∈
      (List.range X.vertices.length).filter (compactKeep X) := by
    rw [List.getD_eq_getElem _ 0 hj]
    exact List.getElem_mem hj
  set i := ((List.range X.vertices.length).filter (compactKeep X)).getD j 0 with hidef
  have hkeep : compactKeep X i = true := (List.mem_filter.mp hiL).2
  have hrank : rankKept (compactKeep X) i = j := rankKept_getD_filter_range _ _ j hj
  have href : referencedIdx X i = true := by
    unfold compactKeep at hkeep
    rw [Bool.and_eq_true] at hkeep
    exact hkeep.2
  obtain ⟨t, ht, hdec⟩ := List.any_eq_true.mp href
  have hcorner := of_decide_eq_true hdec
  unfold referencedIdx
  apply List.any_eq_true.mpr
  refine ⟨mapTri (rankKept (compactKeep X)) t, ?_, ?_⟩
  · rw [remove_unreferenced_vertices_tris]
    exact List.mem_map.mpr ⟨t, ht, rfl⟩
  · rw [decide_eq_true_eq]
    unfold mapTri
    rcases hcorner with h | h | h
    · exact Or.inl (by rw [h, hrank])
    · exact Or.inr (Or.inl (by rw [h, hrank]))
    · exact Or.inr (Or.inr (by rw [h, hrank]))

/-- Compaction is the identity on a valid mesh all of whose vertices are
referenced. -/
theorem remove_unreferenced_vertices_id {Y : Mesh} (hval : MeshValid Y = true)
    (href : ∀ j, j < Y.vertices.length → referencedIdx Y j = true) :
    remove_unreferenced_vertices Y = Y := by
  have hkeep : ∀ j, j < Y.vertices.length → compactKeep Y j = true := by
    intro j hj
    unfold compactKeep
    rw [Bool.and_eq_true, decide_eq_true_eq]
    exact ⟨hj, href j hj⟩
  have hfilter : (List.range Y.vertices.length).filter (compactKeep Y) =
      List.range Y.vertices.length :=
    List.filter_eq_self.mpr (fun a ha => hkeep a (List.mem_range.mp ha))
  refine Mesh.eq_of ?_ ?_
  · rw [remove_unreferenced_vertices_verts, hfilter]
    exact map_getD_range Y.vertices (0, 0, 0)
  · rw [remove_unreferenced_vertices_tris]
    have hrank : ∀ x, x < Y.vertices.length → rankKept (compactKeep Y) x = x := by
      intro x hx
      unfold rankKept
      rw [List.filter_eq_self.mpr (fun a ha => hkeep a (by
        have := List.mem_range.mp ha
        omega))]
      exact List.length_range x
    have hpoint : ∀ t ∈ Y.triangles, mapTri (rankKept (compactKeep Y)) t = t := by
      intro t ht
      have hv := (List.all_eq_true.mp hval) t ht
      rw [decide_eq_true_eq] at hv
      unfold mapTri
      rw [hrank t.1 hv.1, hrank t.2.1 hv.2.1, hrank t.2.2 hv.2.2]
    rw [List.map_congr_left hpoint]
    simp

theorem triVerts_mapTri (f : ℕ → ℕ) (t : Tri) :
    triVerts (mapTri f t) = (triVerts t).image f := by
  unfold triVerts mapTri
  simp only [Finset.image_insert, Finset.image_singleton]

theorem trisAdjacent_mapTri {f : ℕ → ℕ} {t u : Tri}
    (hf : Set.InjOn f (↑(triVerts t) ∪ ↑(triVerts u))) :
    trisAdjacent (mapTri f t) (mapTri f u) = trisAdjacent t u := by
  unfold trisAdjacent
  rw [triVerts_mapTri, triVerts_mapTri, ← Finset.image_inter_of_injOn _ _ hf,
    Finset.card_image_of_injOn (hf.mono (by
      intro x hx
      simp only [Finset.coe_inter, Set.mem_inter_iff, Finset.mem_coe] at hx
      simp only [Set.mem_union, Finset.mem_coe]
      exact Or.inl hx.1))]

theorem mem_triVerts_iff {x : ℕ} {t : Tri} :
    x ∈ triVerts t ↔ x = t.1 ∨ x = t.2.1 ∨ x = t.2.2 := by
  unfold triVerts
  simp

theorem rankKept_injOn (keepAt : ℕ → Bool) :
    Set.InjOn (rankKept keepAt) {i | keepAt i = true} := by
  intro a ha b hb hab
  rcases Nat.lt_trichotomy a b with h | h | h
  · exfalso
    have := rankKept_lt_of_lt keepAt ha h
    omega
  · exact h
  · exfalso
    have := rankKept_lt_of_lt keepAt hb h
    omega

theorem npArgmaxGo_lt : ∀ (vs : List ℚ) (i bi : ℕ) (bv : ℚ), bi < i →
    npArgmaxGo vs i bi bv < i + vs.length := by
  intro vs
  induction vs with
  | nil =>
    intro i bi bv h
    unfold npArgmaxGo
    simpa using h
  | cons v vs ih =>
    intro i bi bv h
    unfold npArgmaxGo
    split
    · have := ih (i + 1) i v (by omega)
      simp only [List.length_cons]
      omega
    · have := ih (i + 1) bi bv (by omega)
      simp only [List.length_cons]
      omega

theorem npArgmax_lt (vals : List ℚ) (h : vals ≠ []) : npArgmax vals < vals.length := by
  cases vals with
  | nil => exact absurd rfl h
  | cons v vs =>
    unfold npArgmax
    have := npArgmaxGo_lt vs 1 0 v (by omega)
    simp only [List.length_cons]
    omega

theorem filter_range_perm_comp {M : Mesh} {c : List ℕ}
    (hc : c ∈ componentsOf M.triangles) :
    ((List.range M.triangles.length).filter (fun i => decide (i ∈ c))).Perm c := by
  rw [List.perm_ext_iff_of_nodup ((List.nodup_range _).filter _)
    (componentsOf_comp_nodup hc)]
  intro a
  simp only [List.mem_filter, List.mem_range, decide_eq_true_eq]
  constructor
  · exact fun h => h.2
  · intro ha
    exact ⟨componentsOf_mem_lt hc ha, ha⟩

theorem keepTrianglesIn_length {M : Mesh} {c : List ℕ}
    (hc : c ∈ componentsOf M.triangles) :
    (keepTrianglesIn M c).triangles.length = c.length := by
  rw [keepTrianglesIn_triangles, List.length_map]
  exact (filter_range_perm_comp hc).length_eq

/-- The sorted list of triangle positions of cluster `c` (the positions the
mask keeps). -/
def ksOf (M : Mesh) (c : List ℕ) : List ℕ :=
  (List.range M.triangles.length).filter (fun i => decide (i ∈ c))

theorem getD_mem_of_lt {α : Type} (l : List α) (d : α) {i : ℕ} (h : i < l.length) :
    l.getD i d ∈ l := by
  rw [List.getD_eq_getElem l d h]
  exact List.getElem_mem h

theorem ksOf_nodup (M : Mesh) (c : List ℕ) : (ksOf M c).Nodup :=
  (List.nodup_range _).filter _

theorem ksOf_mem_lt {M : Mesh} {c : List ℕ} {i : ℕ} (h : i ∈ ksOf M c) :
    i < M.triangles.length :=
  List.mem_range.mp (List.mem_of_mem_filter h)

theorem ksOf_mem_comp {M : Mesh} {c : List ℕ} {i : ℕ} (h : i ∈ ksOf M c) : i ∈ c := by
  have := (List.mem_filter.mp h).2
  exact of_decide_eq_true this

theorem selected_tris (M : Mesh) (c : List ℕ) :
    (remove_unreferenced_vertices (keepTrianglesIn M c)).triangles =
      (ksOf M c).map (fun i =>
        mapTri (rankKept (compactKeep (keepTrianglesIn M c)))
          (M.triangles.getD i (0, 0, 0))) := by
  rw [remove_unreferenced_vertices_tris, keepTrianglesIn_triangles, List.map_map]
  rfl

theorem selected_tris_length {M : Mesh} {c : List ℕ}
    (hc : c ∈ componentsOf M.triangles) :
    (remove_unreferenced_vertices (keepTrianglesIn M c)).triangles.length = c.length := by
  rw [remove_unreferenced_vertices_tris, List.length_map]
  exact keepTrianglesIn_length hc

theorem selected_get? (M : Mesh) (c : List ℕ) {a : ℕ} (ha : a < (ksOf M c).length) :
    (remove_unreferenced_vertices (keepTrianglesIn M c)).triangles.get? a =
      some (mapTri (rankKept (compactKeep (keepTrianglesIn M c)))
        (M.triangles.getD ((ksOf M c).getD a 0) (0, 0, 0))) := by
  rw [selected_tris, List.get?_eq_getElem?, List.getElem?_map,
    List.getElem?_eq_getElem ha, List.getD_eq_getElem _ 0 ha]
  rfl

theorem rankKept_injOn_corners {X : Mesh} (hvalX : MeshValid X = true) {t u : Tri}
    (ht : t ∈ X.triangles) (hu : u ∈ X.triangles) :
    Set.InjOn (rankKept (compactKeep X)) (↑(triVerts t) ∪ ↑(triVerts u)) := by
  apply (rankKept_injOn (compactKeep X)).mono
  intro x hx
  simp only [Set.mem_union, Finset.mem_coe] at hx
  simp only [Set.mem_setOf_eq]
  rcases hx with hx | hx
  · obtain ⟨h1, h2, h3⟩ := compactKeep_of_corner ht hvalX
    rcases mem_triVerts_iff.mp hx with h | h | h
    · rw [h]; exact h1
    · rw [h]; exact h2
    · rw [h]; exact h3
  · obtain ⟨h1, h2, h3⟩ := compactKeep_of_corner hu hvalX
    rcases mem_triVerts_iff.mp hx with h | h | h
    · rw [h]; exact h1
    · rw [h]; exact h2
    · rw [h]; exact h3

theorem getD_mem_keepTriangles {M : Mesh} {c : List ℕ} {i : ℕ} (hi : i ∈ ksOf M c) :
    M.triangles.getD i (0, 0, 0) ∈ (keepTrianglesIn M c).triangles := by
  rw [keepTrianglesIn_triangles]
  exact List.mem_map.mpr ⟨i, hi, rfl⟩

/-- Adjacency in the selected sub-mesh mirrors adjacency in the original mesh
through the position correspondence. -/
theorem selected_adj {M : Mesh} {c : List ℕ} (hval : MeshValid M = true)
    {a b : ℕ} (ha : a < (ksOf M c).length) (hb : b < (ksOf M c).length) :
    adjIdx (remove_unreferenced_vertices (keepTrianglesIn M c)).triangles a b =
      adjIdx M.triangles ((ksOf M c).getD a 0) ((ksOf M c).getD b 0) := by
  have hXval : MeshValid (keepTrianglesIn M c) = true := keepTrianglesIn_valid hval
  have haks : (ksOf M c).getD a 0 ∈ ksOf M c := getD_mem_of_lt _ _ ha
  have hbks : (ksOf M c).getD b 0 ∈ ksOf M c := getD_mem_of_lt _ _ hb
  have haM : (ksOf M c).getD a 0 < M.triangles.length := ksOf_mem_lt haks
  have hbM : (ksOf M c).getD b 0 < M.triangles.length := ksOf_mem_lt hbks
  have hgetA : M.triangles.get? ((ksOf M c).getD a 0) =
      some (M.triangles.getD ((ksOf M c).getD a 0) (0, 0, 0)) := by
    rw [List.get?_eq_getElem?, List.getElem?_eq_getElem haM,
      List.getD_eq_getElem _ _ haM]
  have hgetB : M.triangles.get? ((ksOf M c).getD b 0) =
      some (M.triangles.getD ((ksOf M c).getD b 0) (0, 0, 0)) := by
    rw [List.get?_eq_getElem?, List.getElem?_eq_getElem hbM,
      List.getD_eq_getElem _ _ hbM]
  unfold adjIdx
  rw [selected_get? M c ha, selected_get? M c hb, hgetA, hgetB]
  exact trisAdjacent_mapTri (rankKept_injOn_corners hXval
    (getD_mem_keepTriangles haks) (getD_mem_keepTriangles hbks))

/-- The selected sub-mesh's adjacency graph is connected: paths inside the
cluster transfer through the position correspondence. -/
theorem selected_conn {M : Mesh} {c : List ℕ} (hval : MeshValid M = true)
    (hc : c ∈ componentsOf M.triangles) :
    ∀ j, j < (ksOf M c).length →
      Relation.ReflTransGen (fun a b =>
        adjIdx (remove_unreferenced_vertices (keepTrianglesIn M c)).triangles a b = true)
        0 j := by
  intro j hj
  have h0 : 0 < (ksOf M c).length := by omega
  have hmem : ∀ a, a < (ksOf M c).length → (ksOf M c).getD a 0 ∈ c :=
    fun a ha => ksOf_mem_comp (getD_mem_of_lt _ _ ha)
  have hpath := componentsOf_conn hc _ (hmem 0 h0) _ (hmem j hj)
  have hidx : ∀ v ∈ c, (ksOf M c).indexOf v < (ksOf M c).length ∧
      (ksOf M c).getD ((ksOf M c).indexOf v) 0 = v := by
    intro v hv
    have hvks : v ∈ ksOf M c := (filter_range_perm_comp hc).mem_iff.mpr hv
    have hlt := List.indexOf_lt_length.mpr hvks
    refine ⟨hlt, ?_⟩
    rw [List.getD_eq_getElem _ _ hlt]
    exact List.getElem_indexOf hlt
  have htrans : ∀ x y,
      Relation.ReflTransGen
        (fun a b => a ∈ c ∧ b ∈ c ∧ adjIdx M.triangles a b = true) x y →
      Relation.ReflTransGen (fun a b =>
        adjIdx (remove_unreferenced_vertices (keepTrianglesIn M c)).triangles a b = true)
        ((ksOf M c).indexOf x) ((ksOf M c).indexOf y) := by
    intro x y hp
    induction hp with
    | refl => exact Relation.ReflTransGen.refl
    | tail _ hr ih =>
      refine ih.tail ?_
      obtain ⟨hbc, hcc, hadj⟩ := hr
      have hb := hidx _ hbc
      have hc2 := hidx _ hcc
      rw [selected_adj hval hb.1 hc2.1, hb.2, hc2.2]
      exact hadj
  have hres := htrans _ _ hpath
  have hnodup : (ksOf M c).Nodup := ksOf_nodup M c
  have hi0 : (ksOf M c).indexOf ((ksOf M c).getD 0 0) = 0 := by
    rw [List.getD_eq_getElem _ _ h0]
    exact List.indexOf_getElem hnodup 0 h0
  have hij : (ksOf M c).indexOf ((ksOf M c).getD j 0) = j := by
    rw [List.getD_eq_getElem _ _ hj]
    exact List.indexOf_getElem hnodup j hj
  rw [hi0, hij] at hres
  exact hres

/-- The selected sub-mesh has exactly one connected cluster, covering all of
its triangle positions. -/
theorem selected_single {M : Mesh} {c : List ℕ} (hval : MeshValid M = true)
    (hc : c ∈ componentsOf M.triangles) (hlen : 6 < c.length) :
    ∃ cAll, componentsOf (remove_unreferenced_vertices (keepTrianglesIn M c)).triangles
        = [cAll] ∧
      cAll.Perm (List.range
        (remove_unreferenced_vertices (keepTrianglesIn M c)).triangles.length) := by
  have hlen1 : (remove_unreferenced_vertices (keepTrianglesIn M c)).triangles.length
      = c.length := selected_tris_length hc
  have hks : (ksOf M c).length = c.length := (filter_range_perm_comp hc).length_eq
  apply componentsOf_single
  · omega
  · intro j hj
    exact selected_conn hval hc j (by omega)

/-- `select_largest_component` fixes any valid, fully-referenced mesh with a
single large cluster. -/
theorem select_single_fixed (obbVolume : Mesh → ℚ) (Y : Mesh)
    (hval : MeshValid Y = true)
    (href : ∀ j, j < Y.vertices.length → referencedIdx Y j = true)
    (hsingle : ∃ cAll, componentsOf Y.triangles = [cAll] ∧
      cAll.Perm (List.range Y.triangles.length))
    (htris : 6 < Y.triangles.length) (hverts : 6 < Y.vertices.length) :
    select_largest_component obbVolume Y = Y := by
  obtain ⟨cAll, hcomps, hperm⟩ := hsingle
  have hclen : cAll.length = Y.triangles.length := by
    rw [hperm.length_eq, List.length_range]
  have hk : keepTrianglesIn Y cAll = Y := by
    refine Mesh.eq_of rfl ?_
    unfold keepTrianglesIn
    rw [filterMap_ite]
    have hfil : (List.range Y.triangles.length).filter (fun i => decide (i ∈ cAll)) =
        List.range Y.triangles.length := by
      apply List.filter_eq_self.mpr
      intro a ha
      rw [decide_eq_true_eq]
      exact hperm.mem_iff.mpr ha
    rw [hfil, filterMap_get?_eq_map _ _ (fun i hi => List.mem_range.mp hi),
      map_getD_range]
  have hcompact : remove_unreferenced_vertices Y = Y :=
    remove_unreferenced_vertices_id hval href
  unfold select_largest_component
  rw [hcomps]
  dsimp only
  have hF : (List.filterMap (fun c =>
      if c.length ≤ 6 then none
      else
        let mSingleComponent := remove_unreferenced_vertices (keepTrianglesIn Y c)
        if mSingleComponent.vertices.length ≤ 6 then none
        else some mSingleComponent) [cAll]) = [Y] := by
    rw [List.filterMap_cons, List.filterMap_nil]
    have hFc : (if cAll.length ≤ 6 then none
        else
          let mSingleComponent := remove_unreferenced_vertices (keepTrianglesIn Y cAll)
          if mSingleComponent.vertices.length ≤ 6 then none
          else some mSingleComponent) = some Y := by
      rw [if_neg (by omega)]
      dsimp only
      rw [hk, hcompact, if_neg (by omega)]
    rw [hFc]
  rw [hF]
  rfl

/-- **C7** (idempotence of component selection): for any mesh satisfying the
spec's data-model invariant and containing at least one cluster that survives
the triangle and vertex floors, applying `select_largest_component` to its own
output returns that output unchanged. -/
theorem select_largest_component_idempotent (obbVolume : Mesh → ℚ) (M : Mesh)
    (hval : MeshValid M = true)
    (hsurv : ∃ c ∈ componentsOf M.triangles, 6 < c.length ∧
      6 < (remove_unreferenced_vertices (keepTrianglesIn M c)).vertices.length) :
    select_largest_component obbVolume (select_largest_component obbVolume M) =
      select_largest_component obbVolume M := by
  obtain ⟨c, hc, hclen, hcverts⟩ := hsurv
  set F : List ℕ → Option Mesh := fun c =>
    if c.length ≤ 6 then none
    else
      let mSingleComponent := remove_unreferenced_vertices (keepTrianglesIn M c)
      if mSingleComponent.vertices.length ≤ 6 then none
      else some mSingleComponent with hFdef
  set cands : List Mesh := (componentsOf M.triangles).filterMap F with hcands
  have hFc : F c = some (remove_unreferenced_vertices (keepTrianglesIn M c)) := by
    simp only [hFdef]
    rw [if_neg (by omega), if_neg (by omega)]
  have hmem : remove_unreferenced_vertices (keepTrianglesIn M c) ∈ cands := by
    rw [hcands]
    exact List.mem_filterMap.mpr ⟨c, hc, hFc⟩
  have hne : cands ≠ [] := by
    intro hnil
    rw [hnil] at hmem
    exact absurd hmem (List.not_mem_nil _)
  have hsel : select_largest_component obbVolume M =
      cands.getD (npArgmax (cands.map obbVolume)) M := by
    unfold select_largest_component
    dsimp only
    rw [← hFdef, ← hcands]
    rw [if_neg (by
      intro hempty
      exact hne (List.isEmpty_iff.mp hempty))]
  have hidx : npArgmax (cands.map obbVolume) < cands.length := by
    have := npArgmax_lt (cands.map obbVolume) (by
      intro hnil
      rw [List.map_eq_nil] at hnil
      exact hne hnil)
    rw [List.length_map] at this
    exact this
  have hselmem : select_largest_component obbVolume M ∈ cands := by
    rw [hsel]
    exact getD_mem_of_lt _ _ hidx
  obtain ⟨cStar, hcStar, hFcStar⟩ := List.mem_filterMap.mp hselmem
  have hcStarlen : ¬ (cStar.length ≤ 6) := by
    intro hle
    rw [hFdef] at hFcStar
    dsimp only at hFcStar
    rw [if_pos hle] at hFcStar
    cases hFcStar
  have hcStarEq : select_largest_component obbVolume M =
      remove_unreferenced_vertices (keepTrianglesIn M cStar) ∧
      ¬ ((remove_unreferenced_vertices (keepTrianglesIn M cStar)).vertices.length ≤ 6) := by
    rw [hFdef] at hFcStar
    dsimp only at hFcStar
    rw [if_neg hcStarlen] at hFcStar
    by_cases hv : (remove_unreferenced_vertices (keepTrianglesIn M cStar)).vertices.length ≤ 6
    · rw [if_pos hv] at hFcStar
      cases hFcStar
    · rw [if_neg hv] at hFcStar
      exact ⟨(Option.some.injEq _ _ ▸ hFcStar).symm, hv⟩
  obtain ⟨hEq, hverts⟩ := hcStarEq
  rw [hEq]
  have hXval : MeshValid (keepTrianglesIn M cStar) = true := keepTrianglesIn_valid hval
  apply select_single_fixed
  · exact remove_unreferenced_vertices_valid hXval
  · exact remove_unreferenced_vertices_all_referenced _
  · exact selected_single hval hcStar (by omega)
  · rw [selected_tris_length hcStar]
    omega
  · omega

/-- A triangulated unit cube: 8 vertices, 12 triangles, one connected
cluster. -/
def meshCube : Mesh :=
  ⟨[(0, 0, 0), (1, 0, 0), (1, 1, 0), (0, 1, 0),
    (0, 0, 1), (1, 0, 1), (1, 1, 1), (0, 1, 1)],
    [(0, 1, 2), (0, 2, 3), (4, 5, 6), (4, 6, 7), (0, 1, 5), (0, 5, 4),
      (1, 2, 6), (1, 6, 5), (2, 3, 7), (2, 7, 6), (3, 0, 4), (3, 4, 7)]⟩

/-- Witness for C7 at the cube mesh. -/
theorem select_largest_component_idempotent_witness :
    MeshValid meshCube = true ∧
    (∃ c ∈ componentsOf meshCube.triangles, 6 < c.length ∧
      6 < (remove_unreferenced_vertices (keepTrianglesIn meshCube c)).vertices.length) ∧
    select_largest_component aabbVolumeRank
        (select_largest_component aabbVolumeRank meshCube) =
      select_largest_component aabbVolumeRank meshCube :=
  ⟨by decide, by decide,
    select_largest_component_idempotent aabbVolumeRank meshCube (by decide) (by decide)⟩
